import Mathlib

/-!
Verification of the portfolio-optimizer backend (src/backend.py,
src/backend/mkt_data.py, src/backend/optimizer.py) against its
natural-language specification.

Modelling conventions:
* Dates are day numbers `Nat` counted from a Monday epoch, so day `d` is a
  business day iff `d % 7 < 5` (pandas frequency "B", holidays not modelled).
* A pandas Series of prices is `List (Nat × Option ℚ)`: an ordered list of
  (date, value) rows, `none` standing for a missing value (NaN).
* External network calls (yfinance downloads) are oracles passed as function
  arguments; the pypfopt library is an oracle record of its entry points.
* Raising an exception is modelled by `Except.error`.
-/

namespace PFopt

/-- A price/FX series: dates paired with an optional value (`none` = NaN). -/
abbrev Series := List (Nat × Option ℚ)

/-- Download oracle: yfinance adjusted-close data for a symbol between two
requested dates. -/
abbrev Dl := String → Nat → Nat → Series

/-- The business-day calendar between two dates, inclusive
(pandas `date_range(lo, hi, freq="B")`). -/
def bdRange (lo hi : Nat) : List Nat :=
  ((List.range (hi + 1 - lo)).map (fun k => lo + k)).filter (fun d => d % 7 < 5)

/-- Forward fill with an explicit carry of the last observed value
(pandas `ffill`). -/
def ffillAux : Option ℚ → Series → Series
  | _, [] => []
  | carry, (d, v) :: rest =>
    let v2 := if v.isSome then v else carry
    (d, v2) :: ffillAux v2 rest

/-- Pandas `Series.ffill`: each missing entry takes the closest earlier
observed value, if any. -/
def ffill (s : Series) : Series := ffillAux none s

/-- First observed (non-missing) value of a series. -/
def nextVal (s : Series) : Option ℚ := (s.filterMap Prod.snd).head?

/-- Pandas `Series.bfill`: each missing entry takes the closest later
observed value, if any. -/
def bfill : Series → Series
  | [] => []
  | (d, v) :: rest => (d, if v.isSome then v else nextVal rest) :: bfill rest

/-- Result of folding the forward-fill carry over a list of rows: the last
observed value in the list, else the initial carry. -/
def lastObs (c : Option ℚ) (l : Series) : Option ℚ :=
  l.foldl (fun a p => if p.2.isSome then p.2 else a) c

/-- Python `str.upper()`, written via the character list so that it evaluates
by kernel reduction (extensionally `String.toUpper`). -/
def strUpper (s : String) : String := ⟨s.data.map Char.toUpper⟩

namespace Backend

/-- Embeds `get_data` of src/backend.py: validates the requested span
(`(end_date - start_date).days`, dates as integer day numbers) against
`max_days = 365 * 5` and only then performs the download, modelled by the
`fetch` oracle. -/
def get_data (fetch : Int → Int → List (String × List ℚ)) (start_date end_date : Int) :
    Except String (List (String × List ℚ)) :=
  let max_days : Int := 365 * 5
  let date_diff : Int := end_date - start_date
  if date_diff > max_days then
    Except.error ("Date range exceeds maximum allowed period of 5 years. Requested: "
      ++ toString date_diff ++ " days, Maximum: " ++ toString max_days ++ " days.")
  else
    Except.ok (fetch start_date end_date)

end Backend

namespace MktData

/-- Pandas `asfreq("B")` on a (sorted) series: reindex onto the business-day
calendar spanning the first and last dates of the series, entries absent from the
original index becoming missing. -/
def asfreqB (s : Series) : Series :=
  match s.head?, s.getLast? with
  | some p0, some p1 => (bdRange p0.1 p1.1).map (fun d => (d, (s.lookup d).join))
  | _, _ => []

/-- Embeds `_download_series` of src/backend/mkt_data.py: download (the `dl`
oracle, also covering the early return on an empty frame and the column
selection), drop missing rows, reindex onto the business-day calendar spanning
the own extent of the series, then forward-fill and backward-fill, in that order
(`s.ffill().bfill()`). -/
def _download_series (dl : Dl) (ticker : String) (start_date end_date : Nat) : Series :=
  bfill (ffill (asfreqB ((dl ticker start_date end_date).filter (fun p => p.2.isSome))))

/-- Embeds `get_data` of src/backend/mkt_data.py: an empty ticker list yields
an empty frame; each per-ticker conditioned series is kept only if non-empty;
the kept series are aligned on the sorted union of their dates, reindexed onto
the business-day calendar spanning it (`asfreq("B")`), then backward-filled
and forward-filled (`df.bfill().ffill()`). The function never raises, hence
always returns `Except.ok`. -/
def get_data (dl : Dl) (tickers : List String) (start_date end_date : Nat) :
    Except String (List (String × Series)) :=
  if tickers.isEmpty then Except.ok []
  else
    let series_list := tickers.filterMap (fun t =>
      let s := _download_series dl t start_date end_date
      if s.isEmpty then none else some (t, s))
    if series_list.isEmpty then Except.ok []
    else
      let dates := (series_list.map (fun p => p.2.map Prod.fst)).flatten
      match dates.min?, dates.max? with
      | some lo, some hi =>
          Except.ok (series_list.map (fun p =>
            (p.1, ffill (bfill ((bdRange lo hi).map (fun d => (d, (p.2.lookup d).join)))))))
      | _, _ => Except.ok []

/-- Embeds `1.0 / s_rev.replace(0, np.nan)` of `get_fx`: a zero rate becomes
missing (NaN) before inversion, and a missing rate stays missing. -/
def fxInvert (v : Option ℚ) : Option ℚ :=
  match v with
  | none => none
  | some x => if x = 0 then none else some (1 / x)

/-- Embeds `get_fx` of src/backend/mkt_data.py: identical currencies (after
upper-casing) give a constant-1.0 series over the requested business-day range
and no pair symbol; otherwise the direct pair is tried, then the reverse pair
inverted elementwise, with the pair symbol recording which one was used. -/
def get_fx (dl : Dl) (from_ccy to_ccy : String) (start_date end_date : Nat) :
    Series × Option String :=
  let f := strUpper from_ccy
  let t := strUpper to_ccy
  if f = t then ((bdRange start_date end_date).map (fun d => (d, some 1)), none)
  else
    let direct := f ++ t ++ "=X"
    let s := _download_series dl direct start_date end_date
    if s.isEmpty then
      let reverse := t ++ f ++ "=X"
      let s_rev := _download_series dl reverse start_date end_date
      if s_rev.isEmpty then ([], none)
      else (s_rev.map (fun p => (p.1, fxInvert p.2)), some (reverse ++ "_inverted"))
    else (s, some direct)

/-- Embeds the FX application step of `get_bmk` (src/backend/mkt_data.py):
`fx_series.reindex(df.index).ffill().bfill()`, then elementwise multiplication
of the benchmark column by the aligned FX values
(`df["benchmark_adj_close"] * fx_series.values`). -/
def get_bmk_convert (series : List (Nat × ℚ)) (fx : Series) : Series :=
  let fxa := bfill (ffill (series.map (fun p => (p.1, (fx.lookup p.1).join))))
  List.zipWith (fun p q => (p.1, (q.2).map (fun w => p.2 * w))) series fxa

end MktData

namespace Optimizer

/-- Oracle for the pypfopt library calls made by src/backend/optimizer.py.
`max_sharpe` may raise (modelled by `Except.error`); the remaining calls are
total. `clean_weights` and `portfolio_performance` act on the state left by
`max_sharpe`, i.e. on its returned weights together with the mu/covariance the
frontier was built from. -/
structure PfoptLib where
  mean_historical_return : List (String × List ℚ) → List (String × ℚ)
  sample_cov : List (String × List ℚ) → List (List ℚ)
  max_sharpe : List (String × ℚ) → List (List ℚ) → Except String (List (String × ℚ))
  clean_weights : List (String × ℚ) → List (String × ℚ)
  portfolio_performance : List (String × ℚ) → List (List ℚ) → List (String × ℚ) → ℚ × ℚ × ℚ

/-- Embeds `optimize_portfolio` of src/backend/optimizer.py: estimate mu and
the sample covariance, solve for the max-Sharpe weights, clean them, and read
off the expected performance — with no validation of the shape of the input data
performed by the function itself. -/
def optimize_portfolio (lib : PfoptLib) (data : List (String × List ℚ)) :
    Except String (List (String × ℚ) × (ℚ × ℚ × ℚ)) := do
  let mu := lib.mean_historical_return data
  let S := lib.sample_cov data
  let weights ← lib.max_sharpe mu S
  let cleaned_weights := lib.clean_weights weights
  let perf := lib.portfolio_performance mu S weights
  return (cleaned_weights, perf)

/-- Pandas `price_series.pct_change().dropna()`: simple day-over-day
percentage changes, the first (undefined) observation dropped. -/
def pct_change (l : List ℚ) : List ℚ :=
  (l.zip l.tail).map (fun p => (p.2 - p.1) / p.1)

/-- Arithmetic mean of a list (pandas `Series.mean`). -/
def listMean (l : List ℚ) : ℚ := l.sum / l.length

/-- Pandas `Series.std()` (sample standard deviation, ddof = 1): missing
(NaN) when fewer than two observations are present. The square root is an
oracle `sqrtFn`, since the embedding works over ℚ. -/
def series_std (sqrtFn : ℚ → ℚ) (l : List ℚ) : Option ℚ :=
  if l.length < 2 then none
  else some (sqrtFn ((l.map (fun x => (x - listMean l) ^ 2)).sum / ((l.length : ℚ) - 1)))

/-- Embeds `calculate_series_metrics` of src/backend/optimizer.py: annualized
return from the library oracle `mhr` (pypfopt `mean_historical_return`,
including the scalar extraction), annualized volatility as the standard
deviation of percentage changes times sqrt(252), and Sharpe = mu / sigma
guarded to 0 when sigma is exactly zero. `none` models a NaN scalar, which
propagates through the unguarded division as in the source. -/
def calculate_series_metrics (mhr : List ℚ → ℚ) (sqrtFn : ℚ → ℚ)
    (price_series : List ℚ) : ℚ × Option ℚ × Option ℚ :=
  let mu := mhr price_series
  let returns := pct_change price_series
  let sigma := (series_std sqrtFn returns).map (fun x => x * sqrtFn 252)
  let sharpe : Option ℚ :=
    match sigma with
    | none => none
    | some v => if v = 0 then some 0 else some (mu / v)
  (mu, sigma, sharpe)

/-- Tickers of the weight dict that exist as columns of the price frame, in
weight-dict order (the `valid_tickers` list of `calculate_end_pf_weights`). -/
def valid_tickers (prices_df : List (String × List ℚ)) (weights : List (String × ℚ)) :
    List String :=
  (weights.map Prod.fst).filter (fun t => (prices_df.map Prod.fst).contains t)

/-- Per-ticker total price change over the window:
`prices_df[valid_tickers].iloc[-1] / prices_df[valid_tickers].iloc[0]`.
The source raises IndexError on an empty column; the embedding defaults the
missing endpoints to 0, and every theorem touching ratios is applied to
non-empty columns only. -/
def price_ratios (prices_df : List (String × List ℚ)) (t : String) : ℚ :=
  ((prices_df.lookup t).getD []).getLastD 0 / ((prices_df.lookup t).getD []).headD 0

/-- Sum of the scaled ending values `w_start * price_ratios` over the valid
tickers (`ending_values.sum` of `calculate_end_pf_weights`). -/
def end_total (prices_df : List (String × List ℚ)) (weights : List (String × ℚ)) : ℚ :=
  ((valid_tickers prices_df weights).map
    (fun t => ((weights.lookup t).getD 0) * price_ratios prices_df t)).sum

/-- Embeds `calculate_end_pf_weights` of src/backend/optimizer.py: restrict
the weight dict to tickers present in the price frame; if nothing is left
return two empty series; otherwise scale each start weight by the per-asset
total price change and renormalize by the sum of the scaled values. -/
def calculate_end_pf_weights (prices_df : List (String × List ℚ))
    (weights : List (String × ℚ)) : List (String × ℚ) × List (String × ℚ) :=
  let w_start := (valid_tickers prices_df weights).map
    (fun t => (t, (weights.lookup t).getD 0))
  if w_start.isEmpty then ([], [])
  else
    let ending_values := w_start.map (fun p => (p.1, p.2 * price_ratios prices_df p.1))
    let total := (ending_values.map Prod.snd).sum
    (w_start, ending_values.map (fun p => (p.1, p.2 / total)))

end Optimizer

theorem mem_bdRange (lo hi d : Nat) :
    d ∈ bdRange lo hi ↔ lo ≤ d ∧ d ≤ hi ∧ d % 7 < 5 := by
  simp only [bdRange, List.mem_filter, List.mem_map, List.mem_range, decide_eq_true_eq]
  constructor
  · rintro ⟨⟨k, hk, rfl⟩, hb⟩
    exact ⟨Nat.le_add_right _ _, by omega, hb⟩
  · rintro ⟨h1, h2, h3⟩
    exact ⟨⟨d - lo, by omega, by omega⟩, h3⟩

theorem ffillAux_getElem (c : Option ℚ) (l : Series) (i d : Nat) (v : Option ℚ)
    (h : l[i]? = some (d, v)) :
    (ffillAux c l)[i]? = some (d, lastObs c (l.take (i + 1))) := by
  induction l generalizing c i with
  | nil => simp at h
  | cons a rest ih =>
      obtain ⟨d0, v0⟩ := a
      cases i with
      | zero =>
          rw [List.getElem?_cons_zero] at h
          have h2 := Option.some.inj h
          have hd : d0 = d := congrArg Prod.fst h2
          have hv : v0 = v := congrArg Prod.snd h2
          subst hd
          subst hv
          simp [ffillAux, lastObs]
      | succ j =>
          rw [List.getElem?_cons_succ] at h
          have hrec := ih (if v0.isSome then v0 else c) j h
          simpa [ffillAux, lastObs] using hrec

theorem bfill_getElem (l : Series) (i d : Nat) (v : Option ℚ)
    (h : l[i]? = some (d, v)) :
    (bfill l)[i]? = some (d, if v.isSome then v else nextVal (l.drop (i + 1))) := by
  induction l generalizing i with
  | nil => simp at h
  | cons a rest ih =>
      obtain ⟨d0, v0⟩ := a
      cases i with
      | zero =>
          rw [List.getElem?_cons_zero] at h
          have h2 := Option.some.inj h
          have hd : d0 = d := congrArg Prod.fst h2
          have hv : v0 = v := congrArg Prod.snd h2
          subst hd
          subst hv
          simp [bfill]
      | succ j =>
          rw [List.getElem?_cons_succ] at h
          simpa [bfill] using ih j h

theorem bfill_preserves (l : Series) (i d : Nat) (w : ℚ)
    (h : l[i]? = some (d, some w)) : (bfill l)[i]? = some (d, some w) := by
  have := bfill_getElem l i d (some w) h
  simpa using this

theorem ffillAux_preserves (c : Option ℚ) (l : Series) (i d : Nat) (w : ℚ)
    (h : l[i]? = some (d, some w)) : (ffillAux c l)[i]? = some (d, some w) := by
  induction l generalizing c i with
  | nil => simp at h
  | cons a rest ih =>
      obtain ⟨d0, v0⟩ := a
      cases i with
      | zero =>
          rw [List.getElem?_cons_zero] at h
          have h2 := Option.some.inj h
          have hd : d0 = d := congrArg Prod.fst h2
          have hv : v0 = some w := congrArg Prod.snd h2
          subst hd
          subst hv
          simp [ffillAux]
      | succ j =>
          rw [List.getElem?_cons_succ] at h
          simpa [ffillAux] using ih _ j h

theorem nextVal_ffillAux_isSome (c : Option ℚ) (l : Series)
    (h : ∃ p ∈ l, p.2.isSome = true) : (nextVal (ffillAux c l)).isSome = true := by
  induction l generalizing c with
  | nil =>
      obtain ⟨p, hp, _⟩ := h
      cases hp
  | cons a rest ih =>
      obtain ⟨d0, v0⟩ := a
      cases hv0 : v0 with
      | some w => simp [ffillAux, nextVal, hv0]
      | none =>
          have hrest : ∃ p ∈ rest, p.2.isSome = true := by
            obtain ⟨p, hp, hps⟩ := h
            rcases List.mem_cons.mp hp with h1 | h1
            · rw [h1, hv0] at hps
              cases hps
            · exact ⟨p, h1, hps⟩
          cases hc : c with
          | some u => simp [ffillAux, nextVal, hv0, hc]
          | none =>
              have := ih none hrest
              simpa [ffillAux, nextVal, hv0, hc] using this

theorem bfill_ffillAux_allSome (c : Option ℚ) (l : Series)
    (h : c.isSome = true ∨ ∃ p ∈ l, p.2.isSome = true) :
    ∀ p ∈ bfill (ffillAux c l), p.2.isSome = true := by
  induction l generalizing c with
  | nil =>
      intro p hp
      cases hp
  | cons a rest ih =>
      obtain ⟨d0, v0⟩ := a
      intro p hp
      have hv2 : (if v0.isSome then v0 else c).isSome = true
          ∨ ∃ q ∈ rest, q.2.isSome = true := by
        cases hv0 : v0 with
        | some w => left; simp
        | none =>
            rcases h with hc | ⟨q, hq, hqs⟩
            · left
              simpa [hv0] using hc
            · rcases List.mem_cons.mp hq with h1 | h1
              · rw [h1, hv0] at hqs
                cases hqs
              · right
                exact ⟨q, h1, hqs⟩
      rw [show ffillAux c ((d0, v0) :: rest)
          = (d0, if v0.isSome then v0 else c) :: ffillAux (if v0.isSome then v0 else c) rest
          from rfl] at hp
      rw [show bfill ((d0, if v0.isSome then v0 else c)
            :: ffillAux (if v0.isSome then v0 else c) rest)
          = (d0, if (if v0.isSome then v0 else c).isSome
                then (if v0.isSome then v0 else c)
                else nextVal (ffillAux (if v0.isSome then v0 else c) rest))
            :: bfill (ffillAux (if v0.isSome then v0 else c) rest) from rfl] at hp
      rcases List.mem_cons.mp hp with h1 | h1
      · rw [h1]
        cases hv2s : (if v0.isSome then v0 else c).isSome with
        | true => simp [hv2s]
        | false =>
            rcases hv2 with hl | hr
            · rw [hv2s] at hl
              cases hl
            · simpa [hv2s] using nextVal_ffillAux_isSome _ rest hr
      · exact ih _ hv2 p h1

theorem ffillAux_map_fst (c : Option ℚ) (l : Series) :
    (ffillAux c l).map Prod.fst = l.map Prod.fst := by
  induction l generalizing c with
  | nil => rfl
  | cons a rest ih =>
      obtain ⟨d0, v0⟩ := a
      simp [ffillAux, ih]

theorem bfill_map_fst (l : Series) : (bfill l).map Prod.fst = l.map Prod.fst := by
  induction l with
  | nil => rfl
  | cons a rest ih =>
      obtain ⟨d0, v0⟩ := a
      simp [bfill, ih]

theorem nodup_keys_of_sorted (l : Series) (hs : l.Pairwise (fun p q => p.1 < q.1)) :
    (l.map Prod.fst).Nodup := by
  exact List.pairwise_map.mpr (hs.imp (fun h => Nat.ne_of_lt h))

theorem lookup_of_mem_nodup (l : Series) (hnd : (l.map Prod.fst).Nodup) (d : Nat)
    (v : Option ℚ) (h : (d, v) ∈ l) : l.lookup d = some v := by
  induction l with
  | nil => cases h
  | cons a rest ih =>
      obtain ⟨k, w⟩ := a
      rcases List.mem_cons.mp h with h1 | h1
      · have hd : d = k := congrArg Prod.fst h1
        have hw : v = w := congrArg Prod.snd h1
        subst hd
        subst hw
        simp [List.lookup]
      · have hk : k ∉ rest.map Prod.fst := (List.nodup_cons.mp hnd).1
        have hne : d ≠ k := by
          rintro rfl
          exact hk (List.mem_map.mpr ⟨(d, v), h1, rfl⟩)
        rw [show ((k, w) :: rest).lookup d = rest.lookup d from by
          simp [List.lookup, beq_false_of_ne hne]]
        exact ih (List.nodup_cons.mp hnd).2 h1

theorem sorted_head_le (l : Series) (hs : l.Pairwise (fun p q => p.1 < q.1))
    (x : Nat × Option ℚ) (hx : x ∈ l) (hne : l ≠ []) : (l.head hne).1 ≤ x.1 := by
  cases l with
  | nil => cases hx
  | cons a rest =>
      rcases List.mem_cons.mp hx with h | h
      · subst h
        simp [List.head_cons]
      · exact le_of_lt ((List.pairwise_cons.mp hs).1 x h)

theorem sorted_le_getLast (l : Series) (hs : l.Pairwise (fun p q => p.1 < q.1))
    (x : Nat × Option ℚ) (hx : x ∈ l) (hne : l ≠ []) : x.1 ≤ (l.getLast hne).1 := by
  obtain ⟨i, hi, rfl⟩ := List.mem_iff_getElem.mp hx
  rw [List.getLast_eq_getElem]
  rcases Nat.lt_or_ge i (l.length - 1) with h | h
  · exact le_of_lt (List.pairwise_iff_getElem.mp hs i (l.length - 1) hi (by omega) h)
  · have heq : i = l.length - 1 := by omega
    subst heq
    exact le_refl _

theorem lookup_map_snd (g : Option ℚ → Option ℚ) (l : Series) (k : Nat) :
    (l.map (fun p => (p.1, g p.2))).lookup k = (l.lookup k).map g := by
  induction l with
  | nil => rfl
  | cons a rest ih =>
      obtain ⟨k0, v0⟩ := a
      by_cases h : k = k0
      · subst h
        simp [List.lookup]
      · simp only [List.map_cons]
        rw [show ((k0, g v0) :: rest.map (fun p => (p.1, g p.2))).lookup k
              = (rest.map (fun p => (p.1, g p.2))).lookup k from by
            simp [List.lookup, beq_false_of_ne h],
          show ((k0, v0) :: rest).lookup k = rest.lookup k from by
            simp [List.lookup, beq_false_of_ne h],
          ih]

theorem zipWith_getElem {α β γ : Type} (f : α → β → γ) (as : List α) (bs : List β)
    (i : Nat) (a : α) (b : β) (ha : as[i]? = some a) (hb : bs[i]? = some b) :
    (List.zipWith f as bs)[i]? = some (f a b) := by
  induction as generalizing bs i with
  | nil => simp at ha
  | cons x xs ih =>
      cases bs with
      | nil => simp at hb
      | cons y ys =>
          cases i with
          | zero =>
              rw [List.getElem?_cons_zero] at ha hb
              rw [show List.zipWith f (x :: xs) (y :: ys)
                  = f x y :: List.zipWith f xs ys from rfl,
                List.getElem?_cons_zero, Option.some.inj ha, Option.some.inj hb]
          | succ j =>
              rw [List.getElem?_cons_succ] at ha hb
              rw [show List.zipWith f (x :: xs) (y :: ys)
                  = f x y :: List.zipWith f xs ys from rfl,
                List.getElem?_cons_succ]
              exact ih ys j ha hb

namespace Optimizer

theorem pct_change_replicate (n : Nat) (c : ℚ) (_hc : c ≠ 0) :
    pct_change (List.replicate n c) = List.replicate (n - 1) 0 := by
  have hz : ∀ m : Nat, (List.replicate (m + 1) c).zip (List.replicate m c)
      = List.replicate m (c, c) := by
    intro m
    induction m with
    | zero => rfl
    | succ k ih =>
        calc (List.replicate (k + 2) c).zip (List.replicate (k + 1) c)
            = (c, c) :: ((List.replicate (k + 1) c).zip (List.replicate k c)) := rfl
          _ = (c, c) :: List.replicate k (c, c) := by rw [ih]
          _ = List.replicate (k + 1) (c, c) := rfl
  cases n with
  | zero => rfl
  | succ m =>
      have ht : (List.replicate (m + 1) c).tail = List.replicate m c := by
        simp [List.replicate_succ]
      simp only [pct_change, ht, hz m, List.map_replicate, Nat.add_sub_cancel]
      congr 1
      rw [sub_self, zero_div]

theorem sum_map_div (l : List ℚ) (T : ℚ) : (l.map (fun x => x / T)).sum = l.sum / T := by
  induction l with
  | nil => simp
  | cons x rest ih => simp [ih, add_div]

theorem lookup_map_key {β : Type} (f : String → β) (l : List String) (hnd : l.Nodup)
    (t : String) (ht : t ∈ l) : (l.map (fun u => (u, f u))).lookup t = some (f t) := by
  induction l with
  | nil => cases ht
  | cons a rest ih =>
      rcases List.mem_cons.mp ht with h | h
      · subst h
        simp [List.lookup]
      · have hne : t ≠ a := by
          rintro rfl
          exact (List.nodup_cons.mp hnd).1 h
        have : (t == a) = false := beq_false_of_ne hne
        simp only [List.map_cons, List.lookup, this]
        exact ih (List.nodup_cons.mp hnd).2 h

theorem wstart_eq (prices_df : List (String × List ℚ)) (weights : List (String × ℚ)) :
    (calculate_end_pf_weights prices_df weights).1
      = (valid_tickers prices_df weights).map (fun t => (t, (weights.lookup t).getD 0)) := by
  by_cases h : ((valid_tickers prices_df weights).map
      (fun t => (t, (weights.lookup t).getD 0))).isEmpty
  · rw [calculate_end_pf_weights, if_pos h]
    rw [List.isEmpty_iff] at h
    exact h.symm
  · rw [calculate_end_pf_weights, if_neg h]

theorem wend_eq (prices_df : List (String × List ℚ)) (weights : List (String × ℚ))
    (h : valid_tickers prices_df weights ≠ []) :
    (calculate_end_pf_weights prices_df weights).2
      = (valid_tickers prices_df weights).map
          (fun t => (t, ((weights.lookup t).getD 0 * price_ratios prices_df t)
            / end_total prices_df weights)) := by
  have hne : ¬ ((valid_tickers prices_df weights).map
      (fun t => (t, (weights.lookup t).getD 0))).isEmpty := by
    cases hv : valid_tickers prices_df weights with
    | nil => exact absurd hv h
    | cons a rest => simp [hv]
  rw [calculate_end_pf_weights, if_neg hne]
  simp only [List.map_map]
  rfl

theorem wend_sum_one (prices_df : List (String × List ℚ)) (weights : List (String × ℚ))
    (h : valid_tickers prices_df weights ≠ []) (htot : end_total prices_df weights ≠ 0) :
    ((calculate_end_pf_weights prices_df weights).2.map Prod.snd).sum = 1 := by
  rw [wend_eq prices_df weights h, List.map_map]
  have : ((valid_tickers prices_df weights).map
        (Prod.snd ∘ fun t => (t, ((weights.lookup t).getD 0 * price_ratios prices_df t)
          / end_total prices_df weights))).sum
      = (((valid_tickers prices_df weights).map
          (fun t => (weights.lookup t).getD 0 * price_ratios prices_df t)).map
            (fun x => x / end_total prices_df weights)).sum := by
    rw [List.map_map]
    rfl
  rw [this, sum_map_div]
  exact div_self htot

theorem lookup_cons_ne {β : Type} (k t : String) (v : β) (l : List (String × β))
    (h : t ≠ k) : ((k, v) :: l).lookup t = l.lookup t := by
  simp only [List.lookup, beq_false_of_ne h]

theorem map_lookup_eq_filter (q : String → Bool) (W : List (String × ℚ))
    (hnd : (W.map Prod.fst).Nodup) :
    ((W.map Prod.fst).filter q).map (fun t => (t, (W.lookup t).getD 0))
      = W.filter (fun p => q p.1) := by
  induction W with
  | nil => rfl
  | cons a rest ih =>
      obtain ⟨k, v⟩ := a
      have hk : k ∉ rest.map Prod.fst := (List.nodup_cons.mp hnd).1
      have hrest := (List.nodup_cons.mp hnd).2
      have hcong : ∀ t ∈ (rest.map Prod.fst).filter q,
          (t, ((((k, v) :: rest).lookup t).getD 0 : ℚ))
            = (t, ((rest.lookup t).getD 0 : ℚ)) := by
        intro t htf
        have htm : t ∈ rest.map Prod.fst := (List.mem_filter.mp htf).1
        have hne : t ≠ k := by
          rintro rfl
          exact hk htm
        rw [lookup_cons_ne k t v rest hne]
      have hmc : ((k, v) :: rest).map Prod.fst = k :: rest.map Prod.fst := rfl
      rw [hmc]
      cases hq : q k with
      | true =>
          rw [List.filter_cons_of_pos hq,
            @List.filter_cons_of_pos _ (fun p : String × ℚ => q p.1) (k, v) rest hq,
            List.map_cons]
          congr 1
          · simp [List.lookup]
          · rw [List.map_congr_left hcong, ih hrest]
      | false =>
          rw [List.filter_cons_of_neg (by simp [hq]),
            @List.filter_cons_of_neg _ (fun p : String × ℚ => q p.1) (k, v) rest
              (by simp [hq])]
          rw [List.map_congr_left hcong, ih hrest]

theorem sum_snd_filter_add (q : String × ℚ → Bool) (l : List (String × ℚ)) :
    ((l.filter q).map Prod.snd).sum + ((l.filter (fun p => !q p)).map Prod.snd).sum
      = (l.map Prod.snd).sum := by
  induction l with
  | nil => simp
  | cons x rest ih =>
      cases hq : q x with
      | true =>
          rw [List.filter_cons_of_pos hq, List.filter_cons_of_neg (by simp [hq]),
            List.map_cons, List.sum_cons, List.map_cons, List.sum_cons]
          linarith [ih]
      | false =>
          rw [List.filter_cons_of_neg (by simp [hq]), List.filter_cons_of_pos (by simp [hq]),
            List.map_cons, List.sum_cons, List.map_cons, List.sum_cons]
          linarith [ih]

theorem sum_pos_of_mem (l : List ℚ) (x : ℚ) (hx : x ∈ l) (hpos : 0 < x)
    (hnn : ∀ y ∈ l, 0 ≤ y) : 0 < l.sum := by
  induction l with
  | nil => cases hx
  | cons a rest ih =>
      rw [List.sum_cons]
      rcases List.mem_cons.mp hx with h | h
      · subst h
        have : 0 ≤ rest.sum := List.sum_nonneg (fun y hy => hnn y (List.mem_cons_of_mem _ hy))
        linarith
      · have : 0 < rest.sum := ih h (fun y hy => hnn y (List.mem_cons_of_mem _ hy))
        have ha : 0 ≤ a := hnn a (List.mem_cons_self _ _)
        linarith

theorem wstart_filter (prices_df : List (String × List ℚ)) (weights : List (String × ℚ))
    (hnd : (weights.map Prod.fst).Nodup) :
    (calculate_end_pf_weights prices_df weights).1
      = weights.filter (fun p => (prices_df.map Prod.fst).contains p.1) := by
  rw [wstart_eq, valid_tickers,
    map_lookup_eq_filter (fun t => (prices_df.map Prod.fst).contains t) weights hnd]

end Optimizer

/-- C1 (counterexample): a request spanning exactly 1826 days (5 years
including a leap day) is rejected by the range validation in
src/backend.py `get_data`, contrary to the claim that it is accepted:
the limit in the code is `365 * 5 = 1825` days, which does not account for
leap years. -/
theorem c1_range_boundary_counterexample :
    Backend.get_data (fun _ _ => []) 0 1826
      = Except.error ("Date range exceeds maximum allowed period of 5 years. "
          ++ "Requested: 1826 days, Maximum: 1825 days.") := by
  rfl

/-- C1 (amended): the range validation in src/backend.py `get_data` accepts a
request spanning at most 1825 days (365 × 5, not accounting for leap years)
and raises a ValueError exactly when the span is 1826 days or more; the error
is raised before any price fetch is attempted (the outcome is the same for
every fetch oracle, which is never consulted). -/
theorem c1_range_boundary_amended (fetch : Int → Int → List (String × List ℚ))
    (start_date end_date : Int) :
    (end_date - start_date ≤ 1825 →
      Backend.get_data fetch start_date end_date = Except.ok (fetch start_date end_date))
    ∧ (1825 < end_date - start_date →
        (∀ fetch2, Backend.get_data fetch start_date end_date
            = Backend.get_data fetch2 start_date end_date)
        ∧ Backend.get_data fetch start_date end_date
            = Except.error ("Date range exceeds maximum allowed period of 5 years. Requested: "
                ++ toString (end_date - start_date) ++ " days, Maximum: "
                ++ toString ((365 : Int) * 5) ++ " days.")) := by
  constructor
  · intro h
    have hc : ¬ (end_date - start_date > (365 * 5 : Int)) := by omega
    simp only [Backend.get_data, if_neg hc]
  · intro h
    have hc : end_date - start_date > (365 * 5 : Int) := by omega
    constructor
    · intro fetch2
      simp only [Backend.get_data, if_pos hc]
    · simp only [Backend.get_data, if_pos hc]

/-- C1 (witness): the amended boundary behaviour at concrete spans 1825
(accepted) and 1826 (rejected, fetch-independent). -/
theorem c1_range_boundary_witness :
    (Backend.get_data (fun _ _ => [("A", [1])]) 0 1825 = Except.ok [("A", [1])])
    ∧ (Backend.get_data (fun _ _ => [("A", [1])]) 0 1826
        = Backend.get_data (fun _ _ => []) 0 1826) := by
  refine ⟨(c1_range_boundary_amended (fun _ _ => [("A", [1])]) 0 1825).1 (by decide), ?_⟩
  exact ((c1_range_boundary_amended (fun _ _ => [("A", [1])]) 0 1826).2 (by decide)).1
    (fun _ _ => [])

/-- C2 (counterexample): on a price matrix with a single asset column,
`optimize_portfolio` of src/backend/optimizer.py raises no
"insufficient assets" error: with a library oracle that (like pypfopt on a
one-asset frontier) solves successfully, it silently returns a single-asset
portfolio with weight 1. No InsufficientDataError exists anywhere in the
repository. -/
theorem c2_insufficient_assets_counterexample :
    Optimizer.optimize_portfolio
      { mean_historical_return := fun d => d.map (fun p => (p.1, 0))
        sample_cov := fun _ => [[1]]
        max_sharpe := fun mu _ => Except.ok (mu.map (fun p => (p.1, 1)))
        clean_weights := fun w => w
        portfolio_performance := fun _ _ _ => (0, 0, 0) }
      [("A", [1, 2, 3])]
      = Except.ok ([("A", 1)], (0, 0, 0)) := by
  rfl

/-- C2 (amended): `optimize_portfolio` of src/backend/optimizer.py performs no
asset-count or observation-count validation of its own: whatever the library
returns for `max_sharpe` is surfaced unchanged — success, including on a
single-asset matrix, yields the cleaned weights and performance, and the only
error it can signal is the one from the library, so no distinct "insufficient
assets" / InsufficientDataError failure is ever produced by this function. -/
theorem c2_no_insufficiency_check_amended (lib : Optimizer.PfoptLib)
    (data : List (String × List ℚ)) :
    (∀ w, lib.max_sharpe (lib.mean_historical_return data) (lib.sample_cov data)
        = Except.ok w →
      Optimizer.optimize_portfolio lib data
        = Except.ok (lib.clean_weights w,
            lib.portfolio_performance (lib.mean_historical_return data)
              (lib.sample_cov data) w))
    ∧ (∀ msg, lib.max_sharpe (lib.mean_historical_return data) (lib.sample_cov data)
          = Except.error msg →
        Optimizer.optimize_portfolio lib data = Except.error msg) := by
  constructor
  · intro w h
    simp only [Optimizer.optimize_portfolio, bind, Except.bind, h, pure, Except.pure]
  · intro msg h
    simp only [Optimizer.optimize_portfolio, bind, Except.bind, h]

/-- C2 (witness): the amended pass-through behaviour at a concrete single-asset
matrix and a concrete succeeding library oracle. -/
theorem c2_no_insufficiency_check_witness :
    Optimizer.optimize_portfolio
      { mean_historical_return := fun d => d.map (fun p => (p.1, 2))
        sample_cov := fun _ => [[1]]
        max_sharpe := fun mu _ => Except.ok mu
        clean_weights := fun w => w
        portfolio_performance := fun _ _ _ => (2, 1, 2) }
      [("B", [3, 4])]
      = Except.ok ([("B", 2)], (2, 1, 2)) := by
  exact (c2_no_insufficiency_check_amended
    { mean_historical_return := fun d => d.map (fun p => (p.1, 2))
      sample_cov := fun _ => [[1]]
      max_sharpe := fun mu _ => Except.ok mu
      clean_weights := fun w => w
      portfolio_performance := fun _ _ _ => (2, 1, 2) }
    [("B", [3, 4])]).1 [("B", 2)] (by rfl)

/-- C3 (counterexample): called with an empty ticker list, `get_data` of
src/backend/mkt_data.py returns an empty price matrix without raising any
validation error, contrary to the claim that it raises immediately. -/
theorem c3_empty_tickers_counterexample :
    MktData.get_data (fun _ _ _ => []) [] 0 5 = Except.ok [] := by
  rfl

/-- C3 (amended): the core entry path performs no ticker-list or date-order
validation: `get_data` of src/backend/mkt_data.py returns an empty price
matrix (a default value) for an empty ticker list, for every download oracle;
and `get_data` of src/backend.py does not validate start > end — a negative
span passes the five-year check and the fetch proceeds. -/
theorem c3_no_validation_amended (dl : Dl)
    (fetch : Int → Int → List (String × List ℚ)) (s1 e1 : Nat) (s2 e2 : Int) :
    (MktData.get_data dl [] s1 e1 = Except.ok [])
    ∧ (e2 < s2 → Backend.get_data fetch s2 e2 = Except.ok (fetch s2 e2)) := by
  constructor
  · rfl
  · intro h
    have hc : ¬ (e2 - s2 > (365 * 5 : Int)) := by omega
    simp only [Backend.get_data, if_neg hc]

/-- C3 (witness): concrete instances of the amended behaviour, with an oracle
that does have data (showing the empty result is not forced by the oracle) and
a concrete reversed date pair. -/
theorem c3_no_validation_witness :
    (MktData.get_data (fun _ _ _ => [(0, some 3)]) [] 0 5 = Except.ok [])
    ∧ Backend.get_data (fun _ _ => [("A", [1])]) 10 2 = Except.ok [("A", [1])] := by
  refine ⟨(c3_no_validation_amended (fun _ _ _ => [(0, some 3)])
    (fun _ _ => [("A", [1])]) 0 5 10 2).1, ?_⟩
  exact (c3_no_validation_amended (fun _ _ _ => [(0, some 3)])
    (fun _ _ => [("A", [1])]) 0 5 10 2).2 (by decide)

/-- C4 (counterexample): for the downloaded series 1, missing, 3 on three
consecutive business days, the conditioning in `_download_series` of
src/backend/mkt_data.py fills the interior gap with the PREVIOUS observed
value (1), because the source applies `ffill()` before `bfill()`; the claimed
backward-fill-then-forward-fill order would have produced the next observed
value (3). -/
theorem c4_fill_order_counterexample :
    MktData._download_series
        (fun t _ _ => if t = "T" then [(0, some 1), (1, none), (2, some 3)] else [])
        "T" 0 2
      = [(0, some 1), (1, some 1), (2, some 3)]
    ∧ ¬ MktData._download_series
        (fun t _ _ => if t = "T" then [(0, some 1), (1, none), (2, some 3)] else [])
        "T" 0 2
      = [(0, some 1), (1, some 3), (2, some 3)] := by
  have hval : MktData._download_series
      (fun t _ _ => if t = "T" then [(0, some 1), (1, none), (2, some 3)] else [])
      "T" 0 2 = [(0, some 1), (1, some 1), (2, some 3)] := rfl
  refine ⟨hval, ?_⟩
  intro hcl
  rw [hval] at hcl
  simp only [List.cons.injEq, Prod.mk.injEq, Option.some.injEq] at hcl
  exact absurd hcl.2.1.2 (by norm_num)

/-- C4 (amended): the per-asset conditioning in `_download_series` of
src/backend/mkt_data.py drops fully-missing rows, reindexes onto a
business-day calendar spanning the own extent of the conditioned series, and then
applies forward-fill followed by backward-fill (in that order, the reverse of
the claimed order), so that no gaps remain and an interior gap is filled with
the closest preceding observed value, not the next one. Stated for a sorted,
business-day-indexed download with at least one observed value. -/
theorem c4_conditioning_amended (dl : Dl) (ticker : String) (start_date end_date : Nat)
    (s1 : Series)
    (hs1 : s1 = (dl ticker start_date end_date).filter (fun p => p.2.isSome))
    (hsort : (dl ticker start_date end_date).Pairwise (fun p q => p.1 < q.1))
    (hbd : ∀ p ∈ dl ticker start_date end_date, p.1 % 7 < 5)
    (hobs : ∃ p ∈ dl ticker start_date end_date, p.2.isSome = true) :
    (∃ hne : s1 ≠ [],
      (MktData._download_series dl ticker start_date end_date).map Prod.fst
        = bdRange (s1.head hne).1 (s1.getLast hne).1)
    ∧ (∀ p ∈ MktData._download_series dl ticker start_date end_date, p.2.isSome = true)
    ∧ (∀ (i d : Nat) (v : ℚ),
        (MktData.asfreqB s1)[i]? = some (d, none) →
        lastObs none ((MktData.asfreqB s1).take (i + 1)) = some v →
        (MktData._download_series dl ticker start_date end_date)[i]? = some (d, some v)) := by
  subst hs1
  obtain ⟨p, hpm, hps⟩ := hobs
  have hp1 : p ∈ (dl ticker start_date end_date).filter (fun p => p.2.isSome) :=
    List.mem_filter.mpr ⟨hpm, hps⟩
  have hne : (dl ticker start_date end_date).filter (fun p => p.2.isSome) ≠ [] :=
    List.ne_nil_of_mem hp1
  have hsort1 : ((dl ticker start_date end_date).filter
      (fun p => p.2.isSome)).Pairwise (fun p q => p.1 < q.1) :=
    List.Pairwise.sublist (List.filter_sublist _) hsort
  have hh := List.head?_eq_head hne
  have hl := List.getLast?_eq_getLast _ hne
  have hasf : MktData.asfreqB ((dl ticker start_date end_date).filter (fun p => p.2.isSome))
      = (bdRange (((dl ticker start_date end_date).filter (fun p => p.2.isSome)).head hne).1
          (((dl ticker start_date end_date).filter (fun p => p.2.isSome)).getLast hne).1).map
        (fun d => (d, (((dl ticker start_date end_date).filter
          (fun p => p.2.isSome)).lookup d).join)) := by
    simp only [MktData.asfreqB, hh, hl]
  have hds : MktData._download_series dl ticker start_date end_date
      = bfill (ffill (MktData.asfreqB ((dl ticker start_date end_date).filter
          (fun p => p.2.isSome)))) := rfl
  have hmemr : (p.1, (((dl ticker start_date end_date).filter
      (fun p => p.2.isSome)).lookup p.1).join)
      ∈ MktData.asfreqB ((dl ticker start_date end_date).filter (fun p => p.2.isSome)) := by
    rw [hasf]
    refine List.mem_map.mpr ⟨p.1, (mem_bdRange _ _ _).mpr ⟨?_, ?_, hbd p hpm⟩, rfl⟩
    · exact sorted_head_le _ hsort1 p hp1 hne
    · exact sorted_le_getLast _ hsort1 p hp1 hne
  have hlook : (((dl ticker start_date end_date).filter
      (fun p => p.2.isSome)).lookup p.1) = some p.2 := by
    refine lookup_of_mem_nodup _ (nodup_keys_of_sorted _ hsort1) p.1 p.2 ?_
    rw [Prod.mk.eta]
    exact hp1
  refine ⟨⟨hne, ?_⟩, ?_, ?_⟩
  · rw [hds, hasf, bfill_map_fst, ffill, ffillAux_map_fst, List.map_map]
    rw [show (Prod.fst ∘ fun d : Nat => (d, ((((dl ticker start_date end_date).filter
        (fun p => p.2.isSome)).lookup d).join))) = id from rfl, List.map_id]
  · intro q hq
    rw [hds] at hq
    refine bfill_ffillAux_allSome none _ (Or.inr ?_) q hq
    refine ⟨(p.1, (((dl ticker start_date end_date).filter
      (fun p => p.2.isSome)).lookup p.1).join), hmemr, ?_⟩
    rw [hlook]
    simpa using hps
  · intro i d v h1 h2
    rw [hds]
    have hf := ffillAux_getElem none
      (MktData.asfreqB ((dl ticker start_date end_date).filter (fun p => p.2.isSome)))
      i d none h1
    rw [h2] at hf
    exact bfill_preserves _ i d v hf

/-- C4 (witness): the amended conditioning behaviour at the concrete download
1, missing, 3 on days 0–2: the output covers business days 0–2, has no gaps,
and the gap at day 1 carries the preceding value 1. -/
theorem c4_conditioning_amended_witness :
    ((MktData._download_series
        (fun t _ _ => if t = "S" then [(0, some 1), (1, none), (2, some 3)] else [])
        "S" 0 2).map Prod.fst = bdRange 0 2)
    ∧ (∀ p ∈ MktData._download_series
        (fun t _ _ => if t = "S" then [(0, some 1), (1, none), (2, some 3)] else [])
        "S" 0 2, p.2.isSome = true)
    ∧ (MktData._download_series
        (fun t _ _ => if t = "S" then [(0, some 1), (1, none), (2, some 3)] else [])
        "S" 0 2)[1]? = some (1, some 1) := by
  have h := c4_conditioning_amended
    (fun t _ _ => if t = "S" then [(0, some 1), (1, none), (2, some 3)] else [])
    "S" 0 2 [(0, some 1), (2, some 3)] rfl (by decide) (by decide)
    ⟨(0, some 1), by decide, rfl⟩
  obtain ⟨⟨hne, hidx⟩, hall, hgap⟩ := h
  exact ⟨hidx, hall, hgap 1 1 1 rfl rfl⟩

/-- C5: `calculate_end_pf_weights` of src/backend/optimizer.py computes each
ending weight as the starting weight scaled by the per-asset total price change
over the window (`iloc[-1] / iloc[0]`, the `price_ratios`) divided by the sum
of all scaled values, and when that sum is nonzero the ending weights sum
to 1. -/
theorem c5_end_weight_drift (prices_df : List (String × List ℚ))
    (weights : List (String × ℚ)) (hnd : (weights.map Prod.fst).Nodup)
    (t : String) (ht : t ∈ Optimizer.valid_tickers prices_df weights) :
    ((Optimizer.calculate_end_pf_weights prices_df weights).2.lookup t
      = some (((weights.lookup t).getD 0 * Optimizer.price_ratios prices_df t)
          / Optimizer.end_total prices_df weights))
    ∧ (Optimizer.end_total prices_df weights ≠ 0 →
        ((Optimizer.calculate_end_pf_weights prices_df weights).2.map Prod.snd).sum = 1) := by
  have hvne : Optimizer.valid_tickers prices_df weights ≠ [] := by
    intro h0
    rw [h0] at ht
    cases ht
  constructor
  · rw [Optimizer.wend_eq prices_df weights hvne]
    exact Optimizer.lookup_map_key _ _ (List.Nodup.filter _ hnd) t ht
  · exact fun htot => Optimizer.wend_sum_one prices_df weights hvne htot

/-- C5 (witness): starting weights A ↦ 1/2, B ↦ 1/2 with A doubling
([1, 2]) and B flat ([1, 1]) give ending weights A ↦ 2/3, B ↦ 1/3,
summing to 1. -/
theorem c5_end_weight_drift_witness :
    ((Optimizer.calculate_end_pf_weights [("A", [1, 2]), ("B", [1, 1])]
        [("A", (1 : ℚ) / 2), ("B", 1 / 2)]).2.lookup "A" = some (2 / 3))
    ∧ ((Optimizer.calculate_end_pf_weights [("A", [1, 2]), ("B", [1, 1])]
        [("A", (1 : ℚ) / 2), ("B", 1 / 2)]).2.lookup "B" = some (1 / 3))
    ∧ ((Optimizer.calculate_end_pf_weights [("A", [1, 2]), ("B", [1, 1])]
        [("A", (1 : ℚ) / 2), ("B", 1 / 2)]).2.map Prod.snd).sum = 1 := by
  have htot : Optimizer.end_total [("A", [1, 2]), ("B", [1, 1])]
      [("A", (1 : ℚ) / 2), ("B", 1 / 2)] = 3 / 2 := by
    rw [show Optimizer.end_total [("A", [1, 2]), ("B", [1, 1])]
        [("A", (1 : ℚ) / 2), ("B", 1 / 2)]
        = 1 / 2 * (2 / 1) + (1 / 2 * (1 / 1) + 0) from rfl]
    norm_num
  refine ⟨?_, ?_, ?_⟩
  · rw [(c5_end_weight_drift [("A", [1, 2]), ("B", [1, 1])]
      [("A", (1 : ℚ) / 2), ("B", 1 / 2)] (by decide) "A" (by decide)).1, htot]
    rw [show ((List.lookup "A" [("A", (1 : ℚ) / 2), ("B", 1 / 2)]).getD 0
        * Optimizer.price_ratios [("A", [1, 2]), ("B", [1, 1])] "A") = 1 / 2 * (2 / 1) from rfl]
    norm_num
  · rw [(c5_end_weight_drift [("A", [1, 2]), ("B", [1, 1])]
      [("A", (1 : ℚ) / 2), ("B", 1 / 2)] (by decide) "B" (by decide)).1, htot]
    rw [show ((List.lookup "B" [("A", (1 : ℚ) / 2), ("B", 1 / 2)]).getD 0
        * Optimizer.price_ratios [("A", [1, 2]), ("B", [1, 1])] "B") = 1 / 2 * (1 / 1) from rfl]
    norm_num
  · refine (c5_end_weight_drift [("A", [1, 2]), ("B", [1, 1])]
      [("A", (1 : ℚ) / 2), ("B", 1 / 2)] (by decide) "A" (by decide)).2 ?_
    rw [htot]
    norm_num

/-- C6: when the direct FX pair conditions to an empty series and the reverse
pair does not, `get_fx` of src/backend/mkt_data.py returns the reverse series
inverted elementwise — a zero rate becoming missing (NaN) before inversion,
never a division-by-zero crash — with the pair identifier recording the
inverted reverse pair; and the benchmark conversion step of `get_bmk`
multiplies by the inverted rate, i.e. divides the original series by the
reverse rate at every date carrying a nonzero reverse rate. -/
theorem c6_fx_inversion (dl : Dl) (from_ccy to_ccy : String) (start_date end_date : Nat)
    (series : List (Nat × ℚ))
    (hccy : strUpper from_ccy ≠ strUpper to_ccy)
    (hdir : MktData._download_series dl (strUpper from_ccy ++ strUpper to_ccy ++ "=X")
      start_date end_date = [])
    (hrev : MktData._download_series dl (strUpper to_ccy ++ strUpper from_ccy ++ "=X")
      start_date end_date ≠ []) :
    ((MktData.get_fx dl from_ccy to_ccy start_date end_date).2
      = some (strUpper to_ccy ++ strUpper from_ccy ++ "=X" ++ "_inverted"))
    ∧ ((MktData.get_fx dl from_ccy to_ccy start_date end_date).1
      = (MktData._download_series dl (strUpper to_ccy ++ strUpper from_ccy ++ "=X")
          start_date end_date).map (fun p => (p.1, MktData.fxInvert p.2)))
    ∧ (∀ d : Nat, (d, some 0) ∈ MktData._download_series dl
          (strUpper to_ccy ++ strUpper from_ccy ++ "=X") start_date end_date →
        (d, none) ∈ (MktData.get_fx dl from_ccy to_ccy start_date end_date).1)
    ∧ (∀ (i d : Nat) (v r : ℚ), series[i]? = some (d, v) →
        (MktData._download_series dl (strUpper to_ccy ++ strUpper from_ccy ++ "=X")
          start_date end_date).lookup d = some (some r) →
        r ≠ 0 →
        (MktData.get_bmk_convert series
          (MktData.get_fx dl from_ccy to_ccy start_date end_date).1)[i]?
          = some (d, some (v / r))) := by
  have hdir_e : (MktData._download_series dl (strUpper from_ccy ++ strUpper to_ccy ++ "=X")
      start_date end_date).isEmpty = true := by
    rw [hdir]
    rfl
  have hrev_e : (MktData._download_series dl (strUpper to_ccy ++ strUpper from_ccy ++ "=X")
      start_date end_date).isEmpty = false := by
    cases hcase : MktData._download_series dl (strUpper to_ccy ++ strUpper from_ccy ++ "=X")
        start_date end_date with
    | nil => exact absurd hcase hrev
    | cons a t => rfl
  have hfx : MktData.get_fx dl from_ccy to_ccy start_date end_date
      = ((MktData._download_series dl (strUpper to_ccy ++ strUpper from_ccy ++ "=X")
            start_date end_date).map (fun p => (p.1, MktData.fxInvert p.2)),
          some (strUpper to_ccy ++ strUpper from_ccy ++ "=X" ++ "_inverted")) := by
    simp [MktData.get_fx, if_neg hccy, hdir_e, hrev_e]
  refine ⟨?_, ?_, ?_, ?_⟩
  · rw [hfx]
  · rw [hfx]
  · intro d hd
    rw [hfx]
    refine List.mem_map.mpr ⟨(d, some 0), hd, ?_⟩
    simp [MktData.fxInvert]
  · intro i d v r hsi hlr hrne
    have hfxl : ((MktData._download_series dl (strUpper to_ccy ++ strUpper from_ccy ++ "=X")
        start_date end_date).map (fun p => (p.1, MktData.fxInvert p.2))).lookup d
        = some (some (1 / r)) := by
      rw [lookup_map_snd MktData.fxInvert _ d, hlr]
      simp [MktData.fxInvert, hrne]
    have hrf : (series.map (fun p : Nat × ℚ => (p.1,
        ((((MktData._download_series dl (strUpper to_ccy ++ strUpper from_ccy ++ "=X")
          start_date end_date).map (fun p => (p.1, MktData.fxInvert p.2))).lookup p.1).join))))[i]?
        = some (d, some (1 / r)) := by
      rw [List.getElem?_map, hsi]
      simp [hfxl]
    have hfill := bfill_preserves _ i d (1 / r) (ffillAux_preserves none _ i d (1 / r) hrf)
    have hz := zipWith_getElem
      (fun (p : Nat × ℚ) (q : Nat × Option ℚ) => (p.1, (q.2).map (fun w => p.2 * w)))
      series _ i (d, v) (d, some (1 / r)) hsi hfill
    have hfx1 : (MktData.get_fx dl from_ccy to_ccy start_date end_date).1
        = (MktData._download_series dl (strUpper to_ccy ++ strUpper from_ccy ++ "=X")
            start_date end_date).map (fun p => (p.1, MktData.fxInvert p.2)) := by
      rw [hfx]
    simp only [MktData.get_bmk_convert, hfx1, ffill]
    rw [hz]
    simp [div_eq_mul_inv]

/-- C6 (witness): benchmark in GBP, reporting currency USD, direct GBPUSD=X
unavailable, USDGBP=X available with rate 2 on day 0 — the pair identifier
records the inverted reverse pair and the converted benchmark value is the
original 100 divided by the rate 2. -/
theorem c6_fx_inversion_witness :
    ((MktData.get_fx
        (fun sym _ _ => if sym = "USDGBP=X" then [(0, some 2), (1, some 4)] else [])
        "GBP" "USD" 0 1).2 = some "USDGBP=X_inverted")
    ∧ ((MktData.get_bmk_convert [(0, (100 : ℚ)), (1, 100)]
        (MktData.get_fx
          (fun sym _ _ => if sym = "USDGBP=X" then [(0, some 2), (1, some 4)] else [])
          "GBP" "USD" 0 1).1)[0]? = some (0, some (100 / 2))) := by
  have h := c6_fx_inversion
    (fun sym _ _ => if sym = "USDGBP=X" then [(0, some 2), (1, some 4)] else [])
    "GBP" "USD" 0 1 [(0, (100 : ℚ)), (1, 100)] (by decide) (by rfl) (by decide)
  refine ⟨?_, ?_⟩
  · rw [h.1]
    decide
  · exact h.2.2.2 0 0 100 2 rfl (by rfl) (by norm_num)

/-- C7: for currency codes equal up to letter case, `get_fx` of
src/backend/mkt_data.py returns the constant series 1.0 indexed by exactly the
business days covering the requested range, with a `None` pair identifier. -/
theorem c7_fx_identity (dl : Dl) (from_ccy to_ccy : String) (start_date end_date : Nat)
    (h : strUpper from_ccy = strUpper to_ccy) :
    ((MktData.get_fx dl from_ccy to_ccy start_date end_date).2 = none)
    ∧ ((MktData.get_fx dl from_ccy to_ccy start_date end_date).1
        = (bdRange start_date end_date).map (fun d => (d, some 1)))
    ∧ (∀ d : Nat,
        d ∈ (MktData.get_fx dl from_ccy to_ccy start_date end_date).1.map Prod.fst
          ↔ (start_date ≤ d ∧ d ≤ end_date ∧ d % 7 < 5)) := by
  refine ⟨?_, ?_, ?_⟩
  · simp only [MktData.get_fx, if_pos h]
  · simp only [MktData.get_fx, if_pos h]
  · intro d
    simp only [MktData.get_fx, if_pos h, List.map_map]
    rw [show ((Prod.fst ∘ fun d : Nat => (d, some (1 : ℚ)))) = id from rfl, List.map_id]
    exact mem_bdRange start_date end_date d

/-- C7 (witness): `get_fx("usd", "USD", ...)` over days 0–7 (Monday to the
following Monday) is 1.0 on each of the six business days in the range, with
no pair symbol. -/
theorem c7_fx_identity_witness :
    ((MktData.get_fx (fun _ _ _ => []) "usd" "USD" 0 7).2 = none)
    ∧ ((MktData.get_fx (fun _ _ _ => []) "usd" "USD" 0 7).1
        = [(0, some 1), (1, some 1), (2, some 1), (3, some 1), (4, some 1), (7, some 1)]) := by
  refine ⟨(c7_fx_identity (fun _ _ _ => []) "usd" "USD" 0 7 (by decide)).1, ?_⟩
  rw [(c7_fx_identity (fun _ _ _ => []) "usd" "USD" 0 7 (by decide)).2.1]
  rfl

/-- C8: `calculate_series_metrics` of src/backend/optimizer.py returns
Sharpe = annualized return / annualized volatility whenever the volatility is
a nonzero number, exactly 0 whenever the volatility is exactly zero (no
division-by-zero), and in particular a flat positive series of at least three
prices has zero volatility and Sharpe exactly 0, for any square-root oracle
with sqrt 0 = 0. -/
theorem c8_sharpe_guard (mhr : List ℚ → ℚ) (sqrtFn : ℚ → ℚ) (price_series : List ℚ) :
    (∀ v : ℚ, (Optimizer.calculate_series_metrics mhr sqrtFn price_series).2.1 = some v →
      v ≠ 0 →
      (Optimizer.calculate_series_metrics mhr sqrtFn price_series).2.2
        = some (mhr price_series / v))
    ∧ ((Optimizer.calculate_series_metrics mhr sqrtFn price_series).2.1 = some 0 →
        (Optimizer.calculate_series_metrics mhr sqrtFn price_series).2.2 = some 0)
    ∧ (∀ (n : Nat) (c : ℚ), 3 ≤ n → c ≠ 0 → sqrtFn 0 = 0 →
        price_series = List.replicate n c →
        (Optimizer.calculate_series_metrics mhr sqrtFn price_series).2.1 = some 0
        ∧ (Optimizer.calculate_series_metrics mhr sqrtFn price_series).2.2 = some 0) := by
  refine ⟨?_, ?_, ?_⟩
  · intro v hv hvne
    simp only [Optimizer.calculate_series_metrics] at hv ⊢
    rw [hv]
    simp [if_neg hvne]
  · intro hv
    simp only [Optimizer.calculate_series_metrics] at hv ⊢
    rw [hv]
    simp
  · intro n c hn hc hsq hps
    have hret : Optimizer.pct_change price_series = List.replicate (n - 1) 0 := by
      rw [hps]; exact Optimizer.pct_change_replicate n c hc
    have hlen : (List.replicate (n - 1) (0 : ℚ)).length = n - 1 := List.length_replicate _ _
    have hstd : Optimizer.series_std sqrtFn (List.replicate (n - 1) 0) = some 0 := by
      have hnl : ¬ ((List.replicate (n - 1) (0 : ℚ)).length < 2) := by
        rw [hlen]; omega
      simp only [Optimizer.series_std, if_neg hnl]
      have hmean : Optimizer.listMean (List.replicate (n - 1) (0 : ℚ)) = 0 := by
        simp [Optimizer.listMean, List.sum_replicate]
      rw [hmean]
      simp [List.map_replicate, List.sum_replicate, hsq]
    simp [Optimizer.calculate_series_metrics, hret, hstd]

/-- C8 (witness): concrete instances — a flat series [5,5,5,5] gives
volatility `some 0` and Sharpe `some 0`; the strictly moving series [1,2,3]
with mhr ≡ 7 and the identity as square-root oracle gives
Sharpe = 7 / (63/2). -/
theorem c8_sharpe_guard_witness :
    ((Optimizer.calculate_series_metrics (fun _ => 7) (fun x => x) [5, 5, 5, 5]).2.1 = some 0
      ∧ (Optimizer.calculate_series_metrics (fun _ => 7) (fun x => x) [5, 5, 5, 5]).2.2
          = some 0)
    ∧ (Optimizer.calculate_series_metrics (fun _ => 7) (fun x => x) [1, 2, 3]).2.2
        = some (7 / (63 / 2)) := by
  refine ⟨(c8_sharpe_guard (fun _ => 7) (fun x => x) [5, 5, 5, 5]).2.2 4 5 (by norm_num)
      (by norm_num) rfl rfl, ?_⟩
  refine (c8_sharpe_guard (fun _ => 7) (fun x => x) [1, 2, 3]).1 (63 / 2) ?_ (by norm_num)
  norm_num [Optimizer.calculate_series_metrics, Optimizer.series_std, Optimizer.pct_change,
    Optimizer.listMean]

/-- C9: `calculate_end_pf_weights` of src/backend/optimizer.py keeps exactly
the weight-dict tickers that are price-frame columns (in weight order), every
kept ticker being both a weight key and a column; and with no overlap it
returns a pair of empty series rather than raising. -/
theorem c9_overlap_handling (prices_df : List (String × List ℚ))
    (weights : List (String × ℚ)) :
    ((Optimizer.calculate_end_pf_weights prices_df weights).1.map Prod.fst
      = Optimizer.valid_tickers prices_df weights)
    ∧ (∀ t ∈ Optimizer.valid_tickers prices_df weights,
        t ∈ weights.map Prod.fst ∧ t ∈ prices_df.map Prod.fst)
    ∧ (Optimizer.valid_tickers prices_df weights = [] →
        Optimizer.calculate_end_pf_weights prices_df weights = ([], [])) := by
  refine ⟨?_, ?_, ?_⟩
  · rw [Optimizer.wstart_eq, List.map_map]
    have : (Prod.fst ∘ fun t : String => (t, ((weights.lookup t).getD 0 : ℚ))) = id := rfl
    rw [this, List.map_id]
  · intro t ht
    rw [Optimizer.valid_tickers, List.mem_filter] at ht
    exact ⟨ht.1, by simpa using ht.2⟩
  · intro h
    rw [Optimizer.calculate_end_pf_weights, if_pos (by simp [h])]

/-- C9 (witness): a weight dict over {A, B} against a price frame whose only
column is C — no overlap, and both outputs are empty. -/
theorem c9_overlap_handling_witness :
    (Optimizer.valid_tickers [("C", [1, 2])] [("A", (1 : ℚ) / 2), ("B", 1 / 2)] = [])
    ∧ Optimizer.calculate_end_pf_weights [("C", [1, 2])] [("A", (1 : ℚ) / 2), ("B", 1 / 2)]
        = ([], []) := by
  refine ⟨rfl, ?_⟩
  exact (c9_overlap_handling [("C", [1, 2])] [("A", (1 : ℚ) / 2), ("B", 1 / 2)]).2.2 rfl

/-- C10 (counterexample): with weights A ↦ 1, B ↦ 0 and a price frame whose
only column is A, ticker B is dropped from the returned start weights yet
their sum still equals the input total (1 = 1, not strictly less), so
dropping a ticker does not always make the start-weight sum smaller. -/
theorem c10_start_weights_counterexample :
    ((Optimizer.calculate_end_pf_weights [("A", [1, 2])]
        [("A", (1 : ℚ)), ("B", 0)]).1.map Prod.snd).sum
      = ([("A", (1 : ℚ)), ("B", 0)].map Prod.snd).sum
    ∧ "B" ∈ [("A", (1 : ℚ)), ("B", 0)].map Prod.fst
    ∧ "B" ∉ (Optimizer.calculate_end_pf_weights [("A", [1, 2])]
        [("A", (1 : ℚ)), ("B", 0)]).1.map Prod.fst := by
  have h1 : (Optimizer.calculate_end_pf_weights [("A", [1, 2])]
      [("A", (1 : ℚ)), ("B", 0)]).1 = [("A", 1)] := rfl
  refine ⟨?_, ?_, ?_⟩
  · rw [h1]
    norm_num
  · decide
  · rw [h1]
    decide

/-- C10 (amended): the returned start weights are exactly the restriction of
the input weight dict to tickers present in the price frame — never
renormalized — so with nonnegative input weights their sum is at most the
input total, and strictly less exactly when some dropped ticker carries
positive weight (a zero-weight dropped ticker leaves the sum equal); the
ending weights sum to 1 whenever some tickers overlap and the sum of scaled
ending values is nonzero. -/
theorem c10_start_weights_amended (prices_df : List (String × List ℚ))
    (weights : List (String × ℚ)) (hnd : (weights.map Prod.fst).Nodup) :
    ((Optimizer.calculate_end_pf_weights prices_df weights).1
      = weights.filter (fun p => (prices_df.map Prod.fst).contains p.1))
    ∧ ((∀ p ∈ weights, 0 ≤ p.2) →
        ((Optimizer.calculate_end_pf_weights prices_df weights).1.map Prod.snd).sum
          ≤ (weights.map Prod.snd).sum)
    ∧ ((∀ p ∈ weights, 0 ≤ p.2) →
        (∃ p ∈ weights, (prices_df.map Prod.fst).contains p.1 = false ∧ 0 < p.2) →
        ((Optimizer.calculate_end_pf_weights prices_df weights).1.map Prod.snd).sum
          < (weights.map Prod.snd).sum)
    ∧ (Optimizer.valid_tickers prices_df weights ≠ [] →
        Optimizer.end_total prices_df weights ≠ 0 →
        ((Optimizer.calculate_end_pf_weights prices_df weights).2.map Prod.snd).sum = 1) := by
  have hsplit := Optimizer.sum_snd_filter_add
    (fun p => (prices_df.map Prod.fst).contains p.1) weights
  refine ⟨Optimizer.wstart_filter prices_df weights hnd, ?_, ?_, ?_⟩
  · intro hnn
    rw [Optimizer.wstart_filter prices_df weights hnd]
    have hB : 0 ≤ ((weights.filter
        (fun p => !(prices_df.map Prod.fst).contains p.1)).map Prod.snd).sum := by
      refine List.sum_nonneg ?_
      intro y hy
      obtain ⟨p, hp, rfl⟩ := List.mem_map.mp hy
      exact hnn p (List.mem_filter.mp hp).1
    linarith [hsplit]
  · intro hnn hdrop
    rw [Optimizer.wstart_filter prices_df weights hnd]
    obtain ⟨p, hp, hpc, hppos⟩ := hdrop
    have hB : 0 < ((weights.filter
        (fun p => !(prices_df.map Prod.fst).contains p.1)).map Prod.snd).sum := by
      refine Optimizer.sum_pos_of_mem _ p.2 ?_ hppos ?_
      · exact List.mem_map.mpr ⟨p, List.mem_filter.mpr ⟨hp, by rw [hpc]; rfl⟩, rfl⟩
      · intro y hy
        obtain ⟨q, hq, rfl⟩ := List.mem_map.mp hy
        exact hnn q (List.mem_filter.mp hq).1
    linarith [hsplit]
  · exact fun h htot => Optimizer.wend_sum_one prices_df weights h htot

/-- C10 (witness): a concrete dropped positive-weight ticker makes the start
sum strictly smaller, and the end weights sum to 1. -/
theorem c10_start_weights_witness :
    (((Optimizer.calculate_end_pf_weights [("A", [1, 2])]
        [("A", (3 : ℚ) / 4), ("B", 1 / 4)]).1.map Prod.snd).sum
      < ([("A", (3 : ℚ) / 4), ("B", 1 / 4)].map Prod.snd).sum)
    ∧ ((Optimizer.calculate_end_pf_weights [("A", [1, 2])]
        [("A", (3 : ℚ) / 4), ("B", 1 / 4)]).2.map Prod.snd).sum = 1 := by
  constructor
  · refine (c10_start_weights_amended [("A", [1, 2])]
      [("A", (3 : ℚ) / 4), ("B", 1 / 4)] (by decide)).2.2.1 ?_ ?_
    · intro p hp
      fin_cases hp <;> norm_num
    · exact ⟨("B", 1 / 4), List.mem_cons_of_mem _ (List.mem_cons_self _ _), rfl, by norm_num⟩
  · refine (c10_start_weights_amended [("A", [1, 2])]
      [("A", (3 : ℚ) / 4), ("B", 1 / 4)] (by decide)).2.2.2 (by decide) ?_
    rw [show Optimizer.end_total [("A", [1, 2])] [("A", (3 : ℚ) / 4), ("B", 1 / 4)]
        = 3 / 4 * (2 / 1) + 0 from rfl]
    norm_num

end PFopt
